import Mathlib

/-!
Verification of the spotgen entry-resolution core: a shallow embedding of
the Queue collection algebra and the comparator framework from
src/src/sort.js, and of the Track, Album and Artist resolution state
machines from src/spotify.js, together with theorems settling the
specification claims.
-/

namespace Spotgen

variable {α : Type} {β : Type}

/-!
Model of Array.prototype.sort. Since ECMAScript 2019 the builtin sort is
required to be stable; we model it deterministically as a stable insertion
sort: each element is inserted after every earlier element that does not
compare strictly greater, so elements that compare equal keep their
original relative order.
-/

/-- Insert x into a list, placing it directly before the first element y
with cmp x y < 0. -/
def insertJS (cmp : α → α → Int) (x : α) : List α → List α
  | [] => [x]
  | y :: ys => if cmp x y < 0 then x :: y :: ys else y :: insertJS cmp x ys

/-- Deterministic model of the stable ECMAScript Array sort: fold the
input from the left, inserting each element into the accumulator. -/
def sortJS (cmp : α → α → Int) (l : List α) : List α :=
  l.foldl (fun acc x => insertJS cmp x acc) []

/-- Lexicographic comparison of character lists; executable model of the
ECMAScript string ordering used by the default SortCompare (for the ASCII
strings arising here, code-unit order and scalar-value order agree). -/
def charsLt : List Char → List Char → Bool
  | _, [] => false
  | [], _ :: _ => true
  | c :: cs, d :: ds => if c < d then true else if d < c then false else charsLt cs ds

/-- Default comparator of Array.prototype.sort when no compare function is
given: both arguments are converted to strings and compared
lexicographically. -/
def jsDefaultCompare (toStr : α → String) (a b : α) : Int :=
  if charsLt (toStr a).data (toStr b).data then -1
  else if charsLt (toStr b).data (toStr a).data then 1
  else 0

/-- sort.ascending from src/src/sort.js: lift a scoring function into a
three-way comparator; x less than y gives -1, greater gives 1, ties 0. -/
def ascendingJS [LT β] [∀ x y : β, Decidable (x < y)] (f : α → β) (a b : α) : Int :=
  if f a < f b then -1 else if f b < f a then 1 else 0

/-- Body of the reduce callback in sort.combine: the first comparator
result unless it is zero, in which case the second is evaluated. -/
def combineTwo (f g : α → α → Int) (a b : α) : Int :=
  if f a b = 0 then g a b else f a b

/-- sort.combine from src/src/sort.js: Array.prototype.reduce of the
callback over the comparator arguments. Reduce requires at least one
argument, so the head comparator is passed explicitly. -/
def combineJS (f : α → α → Int) (fs : List (α → α → Int)) : α → α → Int :=
  fs.foldl combineTwo f

/-- sort.stableSort from src/src/sort.js: decorate each element with its
index (key), sort the pairs by the given comparator on values combined
with ascending comparison of keys as tie-break, then undecorate. The
comparator defaults to ascending-by-identity. -/
def stableSort [LT α] [∀ x y : α, Decidable (x < y)]
    (arr : List α) (fn : Option (α → α → Int)) : List α :=
  let f := fn.getD (ascendingJS fun x => x)
  let cmp := combineJS (fun a b => f a.2 b.2) [ascendingJS Prod.fst]
  (sortJS cmp arr.enum).map Prod.snd

/-- Queue.sort from src/spotify.js: assigns self.queue = self.queue.sort(fn).
With fn absent, the builtin default string comparison applies. -/
def queueSort (toStr : α → String) (fn : Option (α → α → Int)) (l : List α) : List α :=
  sortJS (fn.getD (jsDefaultCompare toStr)) l

/-- First non-zero value in a list of comparison results, or zero when
every value is zero. -/
def firstNonZero (l : List Int) : Int :=
  (l.find? fun v => v != 0).getD 0

lemma firstNonZero_nil : firstNonZero [] = 0 := rfl

lemma firstNonZero_cons (v : Int) (l : List Int) :
    firstNonZero (v :: l) = if v = 0 then firstNonZero l else v := by
  by_cases h : v = 0
  · simp [firstNonZero, h]
  · simp [firstNonZero, h]

lemma all_map_eq (l : List α) (f : α → β) (p : β → Bool) :
    (l.map f).all p = l.all fun x => p (f x) := by
  induction l with
  | nil => rfl
  | cons x xs ih => simp [List.all_cons, ih]

lemma combineJS_eq_firstNonZero (fs : List (α → α → Int)) (f : α → α → Int) (a b : α) :
    combineJS f fs a b = firstNonZero ((f :: fs).map fun g => g a b) := by
  induction fs generalizing f with
  | nil =>
      by_cases h : f a b = 0
      · simp [combineJS, firstNonZero_cons, h, firstNonZero_nil]
      · simp [combineJS, firstNonZero_cons, h]
  | cons g gs ih =>
      have hstep : combineJS f (g :: gs) a b = combineJS (combineTwo f g) gs a b := rfl
      rw [hstep, ih]
      by_cases h : f a b = 0
      · simp [List.map_cons, firstNonZero_cons, combineTwo, h]
      · simp [List.map_cons, firstNonZero_cons, combineTwo, h]

lemma firstNonZero_zero_iff (l : List Int) :
    decide (firstNonZero l = 0) = l.all fun v => v == 0 := by
  induction l with
  | nil => simp [firstNonZero_nil]
  | cons v l ih =>
      by_cases h : v = 0
      · simp [firstNonZero_cons, h, ih]
      · simp [firstNonZero_cons, h]

/-- C9: combine returns the result of the first comparator, in
left-to-right order, that is non-zero, and returns zero exactly when all
the comparators return zero; lexicographic ranking. -/
theorem c9_combine (f : α → α → Int) (fs : List (α → α → Int)) (a b : α) :
    combineJS f fs a b = firstNonZero ((f :: fs).map fun g => g a b) ∧
    decide (combineJS f fs a b = 0) = ((f :: fs).all fun g => g a b == 0) := by
  constructor
  · exact combineJS_eq_firstNonZero fs f a b
  · rw [combineJS_eq_firstNonZero fs f a b, firstNonZero_zero_iff,
      List.map_cons, List.all_cons, all_map_eq]
    rfl

lemma mem_insertJS {cmp : α → α → Int} {x p : α} :
    ∀ {l : List α}, p ∈ insertJS cmp x l → p = x ∨ p ∈ l := by
  intro l
  induction l with
  | nil =>
      intro h
      simp [insertJS] at h
      exact Or.inl h
  | cons y ys ih =>
      intro h
      by_cases hc : cmp x y < 0
      · simp [insertJS, hc] at h
        rcases h with h | h | h
        · exact Or.inl h
        · exact Or.inr (by simp [h])
        · exact Or.inr (by simp [h])
      · simp [insertJS, hc] at h
        rcases h with h | h
        · exact Or.inr (by simp [h])
        · rcases ih h with h1 | h1
          · exact Or.inl h1
          · exact Or.inr (by simp [h1])

lemma combineJS_pair (f : α → α → Int) (i j : Nat) (x y : α) :
    combineJS (fun a b : Nat × α => f a.2 b.2) [ascendingJS Prod.fst] (i, x) (j, y)
      = if f x y = 0 then (if i < j then -1 else if j < i then 1 else 0) else f x y := rfl

lemma insertJS_pair_snd (f : α → α → Int) (i : Nat) (x : α) :
    ∀ (acc : List (Nat × α)), (∀ p ∈ acc, p.1 < i) →
      (insertJS (combineJS (fun a b : Nat × α => f a.2 b.2) [ascendingJS Prod.fst])
          (i, x) acc).map Prod.snd
        = insertJS f x (acc.map Prod.snd) := by
  intro acc
  induction acc with
  | nil => intro _; rfl
  | cons hd tl ih =>
      intro hbound
      obtain ⟨j, y⟩ := hd
      have hj : j < i := hbound (j, y) (by simp)
      have hcond :
          (combineJS (fun a b : Nat × α => f a.2 b.2) [ascendingJS Prod.fst] (i, x) (j, y) < 0)
            ↔ f x y < 0 := by
        rw [combineJS_pair]
        by_cases hf : f x y = 0
        · have h1 : ¬ i < j := by omega
          simp [hf, h1, hj]
        · simp [hf]
      have htl : ∀ p ∈ tl, p.1 < i := fun p hp => hbound p (by simp [hp])
      by_cases hlt : f x y < 0
      · have hc : combineJS (fun a b : Nat × α => f a.2 b.2) [ascendingJS Prod.fst]
            (i, x) (j, y) < 0 := hcond.mpr hlt
        simp [insertJS, hc, hlt]
      · have hc : ¬ combineJS (fun a b : Nat × α => f a.2 b.2) [ascendingJS Prod.fst]
            (i, x) (j, y) < 0 := fun h => hlt (hcond.mp h)
        simp [insertJS, hc, hlt, ih htl]

lemma sortJS_enumFrom_snd (f : α → α → Int) :
    ∀ (l : List α) (n : Nat) (acc : List (Nat × α)), (∀ p ∈ acc, p.1 < n) →
      (List.foldl
          (fun a p =>
            insertJS (combineJS (fun a b : Nat × α => f a.2 b.2) [ascendingJS Prod.fst]) p a)
          acc (List.enumFrom n l)).map Prod.snd
        = List.foldl (fun a x => insertJS f x a) (acc.map Prod.snd) l := by
  intro l
  induction l with
  | nil => intro n acc _; rfl
  | cons x xs ih =>
      intro n acc hbound
      have hstep : List.enumFrom n (x :: xs) = (n, x) :: List.enumFrom (n + 1) xs := rfl
      rw [hstep, List.foldl_cons, List.foldl_cons]
      have hacc : ∀ p ∈ insertJS (combineJS (fun a b : Nat × α => f a.2 b.2)
          [ascendingJS Prod.fst]) (n, x) acc, p.1 < n + 1 := by
        intro p hp
        rcases mem_insertJS hp with h | h
        · simp [h]
        · exact Nat.lt_succ_of_lt (hbound p h)
      rw [ih (n + 1) _ hacc, insertJS_pair_snd f n x acc hbound]

lemma sortJS_eq_stableSort [LT α] [∀ x y : α, Decidable (x < y)]
    (f : α → α → Int) (l : List α) : sortJS f l = stableSort l (some f) := by
  unfold stableSort
  have h := sortJS_enumFrom_snd f l 0 [] (by intro p hp; simp at hp)
  simp only [Option.getD_some]
  exact h.symm

lemma insertJS_perm (cmp : α → α → Int) (x : α) :
    ∀ (l : List α), (insertJS cmp x l).Perm (x :: l) := by
  intro l
  induction l with
  | nil => exact List.Perm.refl _
  | cons y ys ih =>
      by_cases hc : cmp x y < 0
      · simp [insertJS, hc]
      · have hstep : insertJS cmp x (y :: ys) = y :: insertJS cmp x ys := by
          simp [insertJS, hc]
        rw [hstep]
        exact (ih.cons y).trans (List.Perm.swap x y ys)

lemma sortJS_foldl_perm (cmp : α → α → Int) :
    ∀ (l acc : List α), (List.foldl (fun a x => insertJS cmp x a) acc l).Perm (acc ++ l) := by
  intro l
  induction l with
  | nil => intro acc; simp
  | cons x xs ih =>
      intro acc
      rw [List.foldl_cons]
      have h1 := ih (insertJS cmp x acc)
      have h2 : (insertJS cmp x acc ++ xs).Perm (acc ++ x :: xs) :=
        ((insertJS_perm cmp x acc).append_right xs).trans List.perm_middle.symm
      exact h1.trans h2

/-- C2 (amended): with an explicit comparator, Queue.sort (the builtin
stable Array sort) reorders exactly like the comparator framework
stableSort of src/src/sort.js, and the result is a permutation of the
input queue; the default comparator, however, is the builtin
string-conversion comparison, not ascending-by-identity. -/
theorem c2_sort_eq_stableSort [LT α] [∀ x y : α, Decidable (x < y)]
    (toStr : α → String) (cmp : α → α → Int) (l : List α) :
    queueSort toStr (some cmp) l = stableSort l (some cmp) ∧
    (queueSort toStr (some cmp) l).Perm l := by
  constructor
  · exact sortJS_eq_stableSort cmp l
  · simpa using sortJS_foldl_perm cmp l []

/-- C2 counterexample: when no comparator is given, Queue.sort falls back
to the builtin string-conversion comparison, which disagrees with the
ascending-by-identity default of stableSort: on [10, 2] the former keeps
[10, 2] (the string "10" precedes the string "2") while the latter
yields [2, 10]. -/
theorem c2_default_counterexample :
    queueSort Nat.repr none [10, 2] = [10, 2] ∧
    stableSort [10, 2] none = [2, 10] ∧
    queueSort Nat.repr none [10, 2] ≠ stableSort [10, 2] none := by
  refine ⟨rfl, rfl, by decide⟩

/-!
Queue.resolveAll from src/spotify.js builds one sequential promise chain:
starting from a resolved promise, for every queue element it appends
a then-step that invokes fn on the element and a then-step that pushes the
value onto the result queue. A rejected promise skips every later
then-callback, so after the first failing invocation fn is never invoked
again and the returned promise rejects with that failure. We model the
settled state of the chain with Except and additionally record, as the
first component, the trace of the elements on which fn was actually
invoked, in invocation order.
-/

/-- Body of the forEach loop in Queue.resolveAll: extend the promise chain
by one invocation of fn followed by one push onto the result queue; a
chain that is already rejected skips both callbacks. -/
def resolveStep {ε : Type} (fn : α → Except ε β)
    (st : List α × Except ε (List β)) (entry : α) : List α × Except ε (List β) :=
  match st.2 with
  | Except.error _ => st
  | Except.ok result =>
    match fn entry with
    | Except.error err => (st.1 ++ [entry], Except.error err)
    | Except.ok value => (st.1 ++ [entry], Except.ok (result ++ [value]))

/-- Queue.resolveAll: sequential fold over the queue; the Except value is
the settled result of the returned promise and the list is the invocation
trace of fn. -/
def resolveAll {ε : Type} (fn : α → Except ε β) (queue : List α) :
    List α × Except ε (List β) :=
  queue.foldl (resolveStep fn) ([], Except.ok [])

lemma resolveStep_error {ε : Type} (fn : α → Except ε β) (log : List α)
    (err : ε) (entry : α) :
    resolveStep fn (log, Except.error err) entry = (log, Except.error err) := rfl

lemma resolveStep_ok_ok {ε : Type} {fn : α → Except ε β} {entry : α} {v : β}
    (h : fn entry = Except.ok v) (log : List α) (acc : List β) :
    resolveStep fn (log, Except.ok acc) entry = (log ++ [entry], Except.ok (acc ++ [v])) := by
  simp [resolveStep, h]

lemma resolveStep_ok_error {ε : Type} {fn : α → Except ε β} {entry : α} {err : ε}
    (h : fn entry = Except.error err) (log : List α) (acc : List β) :
    resolveStep fn (log, Except.ok acc) entry = (log ++ [entry], Except.error err) := by
  simp [resolveStep, h]

lemma resolveAll_go_error {ε : Type} (fn : α → Except ε β) (q : List α)
    (log : List α) (err : ε) :
    List.foldl (resolveStep fn) (log, Except.error err) q = (log, Except.error err) := by
  induction q with
  | nil => rfl
  | cons x xs ih => rw [List.foldl_cons, resolveStep_error]; exact ih

lemma resolveAll_go_ok {ε : Type} (fn : α → Except ε β) (g : α → β) :
    ∀ (q : List α) (log : List α) (acc : List β), (∀ x ∈ q, fn x = Except.ok (g x)) →
      List.foldl (resolveStep fn) (log, Except.ok acc) q
        = (log ++ q, Except.ok (acc ++ q.map g)) := by
  intro q
  induction q with
  | nil => intro log acc _; simp
  | cons x xs ih =>
      intro log acc h
      have hx : fn x = Except.ok (g x) := h x (by simp)
      rw [List.foldl_cons, resolveStep_ok_ok hx,
        ih (log ++ [x]) (acc ++ [g x]) (fun y hy => h y (by simp [hy]))]
      simp

/-- C1: resolveAll invokes fn on the elements strictly in queue order
(first component: the invocation trace), accumulating the results into a
new queue in input order; when every invocation succeeds the result is the
in-order list of values, and when an invocation fails the whole operation
rejects with that failure, the accumulated results are discarded, and fn
is never invoked on any later element (the trace stops at the failing
element). -/
theorem c1_resolveAll {ε : Type} :
    (∀ (fn : α → Except ε β) (g : α → β) (q : List α),
      (∀ x ∈ q, fn x = Except.ok (g x)) →
        resolveAll fn q = (q, Except.ok (q.map g))) ∧
    (∀ (fn : α → Except ε β) (g : α → β) (pre post : List α) (x : α) (err : ε),
      (∀ y ∈ pre, fn y = Except.ok (g y)) → fn x = Except.error err →
        resolveAll fn (pre ++ x :: post) = (pre ++ [x], Except.error err)) := by
  constructor
  · intro fn g q h
    have := resolveAll_go_ok fn g q [] [] h
    simpa [resolveAll] using this
  · intro fn g pre post x err hpre hx
    unfold resolveAll
    rw [List.foldl_append, resolveAll_go_ok fn g pre [] [] hpre, List.foldl_cons,
      resolveStep_ok_error hx, resolveAll_go_error]
    simp

/-- C1 witness: a concrete queue where every invocation succeeds, and one
where the third element fails, stopping the batch with the failure and an
invocation trace that omits the later element. -/
theorem c1_resolveAll_witness :
    resolveAll (fun n : Nat => if n = 5 then Except.error "boom" else Except.ok (n * 10)) [1, 2]
        = ([1, 2], Except.ok [10, 20]) ∧
    resolveAll (fun n : Nat => if n = 5 then Except.error "boom" else Except.ok (n * 10))
        ([1, 2] ++ 5 :: [3])
        = ([1, 2, 5], Except.error "boom") := by
  constructor
  · exact c1_resolveAll.1 (fun n : Nat => if n = 5 then Except.error "boom" else Except.ok (n * 10))
      (fun n => n * 10) [1, 2] (by intro y hy; fin_cases hy <;> rfl)
  · exact c1_resolveAll.2 (fun n : Nat => if n = 5 then Except.error "boom" else Except.ok (n * 10))
      (fun n => n * 10) [1, 2] [3] 5 "boom" (by intro y hy; fin_cases hy <;> rfl) rfl

/-!
Queue.contains and Queue.dedup from src/spotify.js. An element may carry
an equals capability (Track.equals compares lowercased rendered titles);
contains reports an entry equal to the probed object when the capability
is present and accepts it, or when the two are reference-identical.
Reference identity is modeled by decidable equality on the element type,
and the optional capability by eqCap. dedup walks the queue, adding each
entry to a fresh result queue only when the result does not already
contain it.
-/

/-- Equality rule applied by Queue.contains to a stored entry and a probed
object: the equals capability when present, else (or in addition)
reference identity. -/
def jsEquals [DecidableEq α] (eqCap : α → Option (α → Bool)) (entry obj : α) : Bool :=
  (match eqCap entry with
   | some f => f obj
   | none => false) || (entry == obj)

/-- Queue.contains: whether some entry of the queue matches obj under the
jsEquals rule. -/
def containsJS [DecidableEq α] (eqCap : α → Option (α → Bool)) (l : List α) (obj : α) : Bool :=
  l.any fun entry => jsEquals eqCap entry obj

/-- Loop of Queue.dedup: fold the queue into a result list, keeping each
entry only when the result so far does not contain it. -/
def dedupGo [DecidableEq α] (eqCap : α → Option (α → Bool)) :
    List α → List α → List α
  | acc, [] => acc
  | acc, x :: xs =>
    if containsJS eqCap acc x then dedupGo eqCap acc xs
    else dedupGo eqCap (acc ++ [x]) xs

/-- Queue.dedup: rebuild the queue keeping only first occurrences under
the contains equality rule. -/
def dedupJS [DecidableEq α] (eqCap : α → Option (α → Bool)) (q : List α) : List α :=
  dedupGo eqCap [] q

lemma jsEquals_self [DecidableEq α] (eqCap : α → Option (α → Bool)) (x : α) :
    jsEquals eqCap x x = true := by
  simp [jsEquals]

lemma dedupGo_shape [DecidableEq α] (eqCap : α → Option (α → Bool)) :
    ∀ (l acc : List α), ∃ s, dedupGo eqCap acc l = acc ++ s ∧ s.Sublist l := by
  intro l
  induction l with
  | nil => intro acc; exact ⟨[], by simp [dedupGo]⟩
  | cons x xs ih =>
      intro acc
      by_cases hc : containsJS eqCap acc x = true
      · obtain ⟨s, hs, hsub⟩ := ih acc
        exact ⟨s, by simp [dedupGo, hc, hs], hsub.cons x⟩
      · obtain ⟨s, hs, hsub⟩ := ih (acc ++ [x])
        refine ⟨x :: s, ?_, hsub.cons₂ x⟩
        simp only [dedupGo, hc, if_false]
        rw [hs, List.append_assoc]
        rfl

lemma mem_acc_dedupGo [DecidableEq α] (eqCap : α → Option (α → Bool))
    (l acc : List α) {y : α} (hy : y ∈ acc) : y ∈ dedupGo eqCap acc l := by
  obtain ⟨s, hs, _⟩ := dedupGo_shape eqCap l acc
  rw [hs]
  exact List.mem_append_left s hy

lemma dedupGo_pairwise [DecidableEq α] (eqCap : α → Option (α → Bool)) :
    ∀ (l acc : List α),
      List.Pairwise (fun y x => jsEquals eqCap y x = false) acc →
      List.Pairwise (fun y x => jsEquals eqCap y x = false) (dedupGo eqCap acc l) := by
  intro l
  induction l with
  | nil => intro acc h; exact h
  | cons x xs ih =>
      intro acc h
      by_cases hc : containsJS eqCap acc x = true
      · simpa [dedupGo, hc] using ih acc h
      · have hcf : containsJS eqCap acc x = false := by
          rw [Bool.not_eq_true] at hc
          exact hc
        have hall : ∀ y ∈ acc, jsEquals eqCap y x = false := by
          simp only [containsJS, List.any_eq_false] at hcf
          intro y hy
          simpa using hcf y hy
        have hpair : List.Pairwise (fun y x => jsEquals eqCap y x = false) (acc ++ [x]) := by
          rw [List.pairwise_append]
          exact ⟨h, List.pairwise_singleton _ _, fun a ha b hb => by
            rw [List.mem_singleton] at hb
            exact hb ▸ hall a ha⟩
        simpa [dedupGo, hc] using ih (acc ++ [x]) hpair

lemma dedupGo_covers [DecidableEq α] (eqCap : α → Option (α → Bool)) :
    ∀ (l acc : List α) (x : α), x ∈ l →
      (dedupGo eqCap acc l).any (fun y => jsEquals eqCap y x) = true := by
  intro l
  induction l with
  | nil => intro acc x hx; cases hx
  | cons hd tl ih =>
      intro acc x hx
      rw [List.any_eq_true]
      by_cases hc : containsJS eqCap acc hd = true
      · rcases List.mem_cons.mp hx with hx | hx
        · obtain ⟨y, hy, hyx⟩ := List.any_eq_true.mp hc
          refine ⟨y, ?_, ?_⟩
          · simpa [dedupGo, hc] using mem_acc_dedupGo eqCap tl acc hy
          · simpa [hx] using hyx
        · exact List.any_eq_true.mp (by simpa [dedupGo, hc] using ih acc x hx)
      · rcases List.mem_cons.mp hx with hx | hx
        · refine ⟨hd, ?_, by simp [hx, jsEquals_self]⟩
          have : hd ∈ acc ++ [hd] := by simp
          simpa [dedupGo, hc] using mem_acc_dedupGo eqCap tl (acc ++ [hd]) this
        · exact List.any_eq_true.mp (by simpa [dedupGo, hc] using ih (acc ++ [hd]) x hx)

lemma dedupGo_fixed [DecidableEq α] (eqCap : α → Option (α → Bool)) :
    ∀ (l acc : List α),
      List.Pairwise (fun y x => jsEquals eqCap y x = false) l →
      (∀ y ∈ acc, ∀ x ∈ l, jsEquals eqCap y x = false) →
      dedupGo eqCap acc l = acc ++ l := by
  intro l
  induction l with
  | nil => intro acc _ _; simp [dedupGo]
  | cons x xs ih =>
      intro acc hpair hacc
      have hc : containsJS eqCap acc x = false := by
        rw [containsJS, List.any_eq_false]
        intro y hy
        simp [hacc y hy x (by simp)]
      have hrec := ih (acc ++ [x]) hpair.of_cons ?hside
      case hside =>
        intro y hy z hz
        rcases List.mem_append.mp hy with hy | hy
        · exact hacc y hy z (by simp [hz])
        · rw [List.mem_singleton] at hy
          exact hy ▸ (List.pairwise_cons.mp hpair).1 z hz
      rw [dedupGo, if_neg (by simp [hc]), hrec, List.append_assoc]
      rfl

/-- C8: dedup keeps a subsequence of the queue (so the order of the kept
first occurrences is preserved), no two kept entries match under the
contains equality rule (each is the only kept representative of its
class), every original entry matches some kept entry (exactly the first
occurrences survive), and dedup is idempotent. -/
theorem c8_dedup [DecidableEq α] (eqCap : α → Option (α → Bool)) (q : List α) :
    (dedupJS eqCap q).Sublist q ∧
    List.Pairwise (fun y x => jsEquals eqCap y x = false) (dedupJS eqCap q) ∧
    (q.all fun x => (dedupJS eqCap q).any fun y => jsEquals eqCap y x) = true ∧
    dedupJS eqCap (dedupJS eqCap q) = dedupJS eqCap q := by
  refine ⟨?_, ?_, ?_, ?_⟩
  · obtain ⟨s, hs, hsub⟩ := dedupGo_shape eqCap q []
    rw [dedupJS, hs]
    simpa using hsub
  · exact dedupGo_pairwise eqCap q [] (List.Pairwise.nil)
  · rw [List.all_eq_true]
    intro x hx
    exact dedupGo_covers eqCap q [] x hx
  · have hpair := dedupGo_pairwise eqCap q [] (List.Pairwise.nil)
    have := dedupGo_fixed eqCap (dedupJS eqCap q) [] hpair (by intro y hy; cases hy)
    simpa [dedupJS] using this

/-!
Queue.flatten from src/spotify.js. A queue element is either a terminal
entry or itself a queue (the instanceof spotify.Queue test); flatten walks
the element array, recursively flattening any nested queue and splicing
its contents in place, and pushing terminal elements unchanged.
-/

/-- Element of a Queue: either a terminal entry or a nested Queue. -/
inductive QElem (α : Type) where
  | entry : α → QElem α
  | queue : List (QElem α) → QElem α

/-- Whether an element is a nested Queue (the instanceof test). -/
def isQueueElem : QElem α → Bool
  | QElem.queue _ => true
  | QElem.entry _ => false

/-- Queue.flatten: splice the flattened contents of any nested queue in
place, keep terminal entries unchanged. -/
def flattenQ : List (QElem α) → List (QElem α)
  | [] => []
  | QElem.queue q :: rest => flattenQ q ++ flattenQ rest
  | QElem.entry a :: rest => QElem.entry a :: flattenQ rest
termination_by l => sizeOf l
decreasing_by all_goals simp_wf <;> omega

/-- Leaf entries of a queue, in depth-first left-to-right order. -/
def leafEntries : List (QElem α) → List α
  | [] => []
  | QElem.queue q :: rest => leafEntries q ++ leafEntries rest
  | QElem.entry a :: rest => a :: leafEntries rest
termination_by l => sizeOf l
decreasing_by all_goals simp_wf <;> omega

lemma flattenQ_eq_leaves (l : List (QElem α)) :
    flattenQ l = (leafEntries l).map QElem.entry := by
  induction l using flattenQ.induct with
  | case1 => simp [flattenQ, leafEntries]
  | case2 q rest ih1 ih2 => rw [flattenQ, leafEntries, List.map_append, ih1, ih2]
  | case3 a rest ih => rw [flattenQ, leafEntries, List.map_cons, ih]

/-- C7: flatten yields the depth-first left-to-right sequence of leaf
entries; no element of the result is a nested Queue, terminal entries are
untouched (the result is exactly the leaf entries re-wrapped in their
terminal form), and the length equals the number of leaf entries. -/
theorem c7_flatten (l : List (QElem α)) :
    flattenQ l = (leafEntries l).map QElem.entry ∧
    ((flattenQ l).all fun e => !isQueueElem e) = true ∧
    (flattenQ l).length = (leafEntries l).length := by
  refine ⟨flattenQ_eq_leaves l, ?_, ?_⟩
  · rw [flattenQ_eq_leaves l, List.all_eq_true]
    intro e he
    obtain ⟨a, _, rfl⟩ := List.mem_map.mp he
    rfl
  · rw [flattenQ_eq_leaves l, List.length_map]

/-!
Queue.group from src/spotify.js. The first loop files every entry, in
queue order, into a bucket of a JavaScript array used as a dictionary,
keyed by fn(entry); buckets are created on first use and extended by push.
The second loop concatenates the buckets in for-in enumeration order.
Per the ECMAScript ordinary own property key ordering, for-in visits
integer-index keys first in ascending numeric order, and the remaining
string keys afterwards in property creation order. A key is modeled as a
sum: inl for an integer-index key, inr for any other string key.
-/

/-- Property key of the JavaScript bucket map: an integer-index key or a
plain string key. -/
abbrev JSKey := Sum Nat String

instance : BEq JSKey := ⟨fun a b => decide (a = b)⟩

instance : LawfulBEq JSKey where
  eq_of_beq h := of_decide_eq_true h
  rfl := by simp [BEq.beq]

/-- Filing one entry into the bucket map: extend the bucket of its key in
place, or create the bucket at the end (property creation order). -/
def insertEntry (m : List (JSKey × List α)) (k : JSKey) (x : α) : List (JSKey × List α) :=
  match m with
  | [] => [(k, [x])]
  | (k₀, xs) :: rest =>
    if k₀ = k then (k₀, xs ++ [x]) :: rest else (k₀, xs) :: insertEntry rest k x

/-- First loop of Queue.group: file every entry into the bucket map. -/
def buildMap (fn : α → JSKey) (q : List α) : List (JSKey × List α) :=
  q.foldl (fun m x => insertEntry m (fn x) x) []

/-- Second loop of Queue.group: concatenate the buckets in for-in order,
integer-index keys ascending first, then the other keys in creation
order. -/
def groupJS (fn : α → JSKey) (q : List α) : List α :=
  let m := buildMap fn q
  let nums := sortJS (ascendingJS Prod.fst)
    (m.filterMap fun p =>
      match p.1 with
      | Sum.inl n => some (n, p.2)
      | Sum.inr _ => none)
  let strs := m.filter fun p => p.1.isRight
  (nums.map Prod.snd).join ++ (strs.map Prod.snd).join

/-- One step of collecting keys in order of first appearance. -/
def firstKeysStep (acc : List JSKey) (k : JSKey) : List JSKey :=
  if k ∈ acc then acc else acc ++ [k]

/-- Keys of a sequence in order of first appearance. -/
def firstKeys (l : List JSKey) : List JSKey :=
  l.foldl firstKeysStep []

/-- Entries of the queue carrying the key k, in queue order. -/
def bucketOf (fn : α → JSKey) (q : List α) (k : JSKey) : List α :=
  q.filter fun x => decide (fn x = k)

/-- Stable bucketing in the words of the specification: buckets
concatenated in order of each key's first appearance, entries in original
relative order within each bucket. -/
def groupFirstApp (fn : α → JSKey) (q : List α) : List α :=
  ((firstKeys (q.map fn)).map (bucketOf fn q)).join

lemma mem_firstKeys_go (l : List JSKey) :
    ∀ (acc : List JSKey) (x : JSKey),
      (x ∈ l.foldl firstKeysStep acc) ↔ x ∈ acc ∨ x ∈ l := by
  induction l with
  | nil => intro acc x; simp
  | cons k ks ih =>
      intro acc x
      rw [List.foldl_cons]
      by_cases hk : k ∈ acc
      · rw [firstKeysStep, if_pos hk, ih acc x]
        constructor
        · rintro (h | h)
          · exact Or.inl h
          · exact Or.inr (by simp [h])
        · rintro (h | h)
          · exact Or.inl h
          · rcases List.mem_cons.mp h with h | h
            · exact Or.inl (h ▸ hk)
            · exact Or.inr h
      · rw [firstKeysStep, if_neg hk, ih (acc ++ [k]) x]
        constructor
        · rintro (h | h)
          · rcases List.mem_append.mp h with h | h
            · exact Or.inl h
            · exact Or.inr (by simp at h; simp [h])
          · exact Or.inr (by simp [h])
        · rintro (h | h)
          · exact Or.inl (List.mem_append_left _ h)
          · rcases List.mem_cons.mp h with h | h
            · exact Or.inl (by simp [h])
            · exact Or.inr h

lemma mem_firstKeys (l : List JSKey) (x : JSKey) : x ∈ firstKeys l ↔ x ∈ l := by
  rw [firstKeys, mem_firstKeys_go]
  simp

lemma nodup_firstKeys_go (l : List JSKey) :
    ∀ (acc : List JSKey), acc.Nodup → (l.foldl firstKeysStep acc).Nodup := by
  induction l with
  | nil => intro acc h; exact h
  | cons k ks ih =>
      intro acc h
      rw [List.foldl_cons]
      by_cases hk : k ∈ acc
      · rw [firstKeysStep, if_pos hk]; exact ih acc h
      · rw [firstKeysStep, if_neg hk]
        refine ih (acc ++ [k]) ?_
        rw [List.nodup_append]
        exact ⟨h, List.nodup_singleton k, fun a ha hb => by
          rw [List.mem_singleton] at hb
          exact hk (hb ▸ ha)⟩

lemma nodup_firstKeys (l : List JSKey) : (firstKeys l).Nodup :=
  nodup_firstKeys_go l [] List.nodup_nil

lemma firstKeys_snoc (l : List JSKey) (k : JSKey) :
    firstKeys (l ++ [k])
      = if k ∈ firstKeys l then firstKeys l else firstKeys l ++ [k] := by
  rw [firstKeys, List.foldl_append]
  rfl

lemma bucketOf_snoc (fn : α → JSKey) (q : List α) (x : α) (j : JSKey) :
    bucketOf fn (q ++ [x]) j
      = if j = fn x then bucketOf fn q j ++ [x] else bucketOf fn q j := by
  by_cases h : fn x = j
  · simp [bucketOf, List.filter_append, h]
  · simp [bucketOf, List.filter_append, h, Ne.symm h]

lemma insertEntry_map_mem (b : JSKey → List α) (k : JSKey) (x : α) :
    ∀ (ks : List JSKey), k ∈ ks → ks.Nodup →
      insertEntry (ks.map fun j => (j, b j)) k x
        = ks.map fun j => (j, if j = k then b j ++ [x] else b j) := by
  intro ks
  induction ks with
  | nil => intro hk _; cases hk
  | cons k₀ ktl ih =>
      intro hk hnd
      obtain ⟨hk₀, hnd'⟩ := List.nodup_cons.mp hnd
      rw [List.map_cons, List.map_cons, insertEntry]
      by_cases h0 : k₀ = k
      · rw [if_pos h0, if_pos h0]
        congr 1
        refine (List.map_congr_left ?_).symm
        intro j hj
        have : j ≠ k := fun hjk => hk₀ (h0 ▸ hjk ▸ hj)
        rw [if_neg this]
      · rw [if_neg h0, if_neg h0]
        have hk' : k ∈ ktl := by
          rcases List.mem_cons.mp hk with h | h
          · exact absurd h.symm h0
          · exact h
        rw [ih hk' hnd']

lemma insertEntry_map_notMem (b : JSKey → List α) (k : JSKey) (x : α) :
    ∀ (ks : List JSKey), k ∉ ks →
      insertEntry (ks.map fun j => (j, b j)) k x
        = (ks.map fun j => (j, b j)) ++ [(k, [x])] := by
  intro ks
  induction ks with
  | nil => intro _; rfl
  | cons k₀ ktl ih =>
      intro hk
      have h0 : k₀ ≠ k := fun h => hk (by simp [h])
      rw [List.map_cons, insertEntry, if_neg h0, ih (fun h => hk (by simp [h]))]
      rfl

lemma buildMap_snoc (fn : α → JSKey) (q : List α) (x : α) :
    buildMap fn (q ++ [x]) = insertEntry (buildMap fn q) (fn x) x := by
  rw [buildMap, List.foldl_append]
  rfl

lemma buildMap_char (fn : α → JSKey) (q : List α) :
    buildMap fn q = (firstKeys (q.map fn)).map fun k => (k, bucketOf fn q k) := by
  induction q using List.reverseRecOn with
  | nil => rfl
  | append_singleton q x ih =>
      rw [buildMap_snoc, ih, List.map_append]
      simp only [List.map_cons, List.map_nil]
      rw [firstKeys_snoc]
      by_cases hk : fn x ∈ firstKeys (q.map fn)
      · rw [if_pos hk,
          insertEntry_map_mem (bucketOf fn q) (fn x) x _ hk (nodup_firstKeys _)]
        refine List.map_congr_left ?_
        intro j _
        rw [bucketOf_snoc]
      · rw [if_neg hk,
          insertEntry_map_notMem (bucketOf fn q) (fn x) x _ hk, List.map_append]
        congr 1
        · refine List.map_congr_left ?_
          intro j hj
          rw [bucketOf_snoc, if_neg (fun (h : j = fn x) => hk (h ▸ hj))]
        · simp only [List.map_cons, List.map_nil]
          congr 2
          rw [bucketOf_snoc, if_pos rfl]
          have hempty : bucketOf fn q (fn x) = [] := by
            rw [bucketOf, List.filter_eq_nil]
            intro a ha
            simp only [decide_eq_true_eq]
            intro hfa
            exact hk ((mem_firstKeys _ _).mpr (hfa ▸ List.mem_map_of_mem fn ha))
          rw [hempty]
          rfl

/-- C3 counterexample: with integer-index keys, for-in enumerates the
buckets in ascending numeric key order, not in order of first appearance:
keys [2, 1] produce output [element1, element0] instead of
[element0, element1]. -/
theorem c3_numeric_counterexample :
    groupJS (fun x : Nat => Sum.inl (2 - x)) [0, 1] = [1, 0] ∧
    groupFirstApp (fun x : Nat => Sum.inl (2 - x)) [0, 1] = [0, 1] ∧
    groupJS (fun x : Nat => Sum.inl (2 - x)) [0, 1]
      ≠ groupFirstApp (fun x : Nat => Sum.inl (2 - x)) [0, 1] := by
  refine ⟨by decide, by decide, by decide⟩

/-- C3 (amended): group files each element into the bucket of its key and
emits the buckets in for-in order: integer-index keys in ascending numeric
order first, then the remaining keys in order of first appearance, with
the original relative order preserved inside every bucket; in particular,
whenever no key is an integer index, the output is exactly the buckets in
order of each key's first appearance. -/
theorem c3_group_first_appearance (fn : α → JSKey) (q : List α)
    (h : ∀ x ∈ q, (fn x).isRight = true) :
    groupJS fn q = groupFirstApp fn q := by
  have hkeys : ∀ k ∈ firstKeys (q.map fn), k.isRight = true := by
    intro k hk
    obtain ⟨x, hx, rfl⟩ := List.mem_map.mp ((mem_firstKeys _ _).mp hk)
    exact h x hx
  have hnums :
      ((firstKeys (q.map fn)).map fun k => (k, bucketOf fn q k)).filterMap
          (fun p => match p.1 with
            | Sum.inl n => some (n, p.2)
            | Sum.inr _ => none) = [] := by
    rw [List.filterMap_eq_nil_iff]
    intro p hp
    obtain ⟨k, hk, rfl⟩ := List.mem_map.mp hp
    have := hkeys k hk
    cases k with
    | inl n => simp at this
    | inr s => rfl
  have hstrs :
      ((firstKeys (q.map fn)).map fun k => (k, bucketOf fn q k)).filter
          (fun p => p.1.isRight)
        = (firstKeys (q.map fn)).map fun k => (k, bucketOf fn q k) := by
    rw [List.filter_eq_self]
    intro p hp
    obtain ⟨k, hk, rfl⟩ := List.mem_map.mp hp
    exact hkeys k hk
  simp only [groupJS]
  rw [buildMap_char, hnums, hstrs]
  simp only [sortJS, List.foldl_nil, List.map_nil, List.join_nil, List.nil_append]
  rw [List.map_map, groupFirstApp]
  rfl

/-- C3 witness: non-index string keys in the pattern [a, b, a] produce the
first-appearance bucket order [element0, element2, element1], and the two
characterizations agree. -/
theorem c3_group_witness :
    (∀ x ∈ [0, 1, 2], ((fun n : Nat => (Sum.inr (if n = 1 then "b" else "a") : JSKey)) x).isRight
        = true) ∧
    groupJS (fun n : Nat => (Sum.inr (if n = 1 then "b" else "a") : JSKey)) [0, 1, 2]
      = groupFirstApp (fun n : Nat => (Sum.inr (if n = 1 then "b" else "a") : JSKey)) [0, 1, 2] ∧
    groupFirstApp (fun n : Nat => (Sum.inr (if n = 1 then "b" else "a") : JSKey)) [0, 1, 2]
      = [0, 2, 1] := by
  refine ⟨by decide, c3_group_first_appearance _ _ (by decide), by decide⟩

/-!
Track, Album and Artist resolution from src/spotify.js. String handling
(trim, case-insensitive anchored regex tests) is modeled on the character
list underlying the string, so that every definition evaluates by kernel
reduction.
-/

/-- Lowercasing of one ASCII character, as the case-insensitive regex flag
behaves on the ASCII patterns involved. -/
def lowerChar (c : Char) : Char :=
  if 'A' ≤ c && c ≤ 'Z' then Char.ofNat (c.toNat + 32) else c

/-- Whether the second list begins with the first (anchored pattern
test). -/
def beginsWith : List Char → List Char → Bool
  | [], _ => true
  | _ :: _, [] => false
  | p :: ps, c :: cs => (p == c) && beginsWith ps cs

/-- JavaScript whitespace for String.prototype.trim, restricted to the
common ASCII whitespace characters. -/
def isSpaceChar (c : Char) : Bool :=
  c == ' ' || c == '\t' || c == '\n' || c == '\r'

/-- String.prototype.trim: strip whitespace from both ends. -/
def trimJS (s : String) : String :=
  ⟨((s.data.dropWhile isSpaceChar).reverse.dropWhile isSpaceChar).reverse⟩

/-- Track.isURI: whether the string matches the anchored case-insensitive
pattern spotify:track: . -/
def isURI (str : String) : Bool :=
  beginsWith "spotify:track:".data (str.data.map lowerChar)

/-- Track.isLink: whether the string matches the anchored
case-insensitive open.spotify.com track link pattern (http or https). -/
def isLink (str : String) : Bool :=
  beginsWith "https://open.spotify.com/track/".data (str.data.map lowerChar)
    || beginsWith "http://open.spotify.com/track/".data (str.data.map lowerChar)

/-- Spotify track response record; the popularity field is optional
(undefined on simplified records). -/
structure TrackResponse where
  popularity : Option Int
  uri : String
deriving DecidableEq

/-- Track entry: the trimmed entry string plus the optional full and
simplified response payloads. -/
structure Track where
  entry : String
  response : Option TrackResponse
  responseSimple : Option TrackResponse
deriving DecidableEq

/-- JavaScript truthiness of an optional numeric field: undefined and 0
are falsy. -/
def truthyNum : Option Int → Bool
  | none => false
  | some v => v != 0

/-- Track.isFullResponse: response and response.popularity are both
truthy. -/
def isFullResponse (response : Option TrackResponse) : Bool :=
  match response with
  | none => false
  | some r => truthyNum r.popularity

/-- Track constructor: trim the entry, then file the optional response
argument as the full response when isFullResponse accepts it, else as the
simplified response. -/
def mkTrack (entry : String) (response : Option TrackResponse) : Track :=
  if isFullResponse response then
    { entry := trimJS entry, response := response, responseSimple := none }
  else
    { entry := trimJS entry, response := none, responseSimple := response }

/-- Branch taken by Track.dispatch. -/
inductive TrackAction where
  | resolveSelf
  | fetchTrack
  | searchForTrack
deriving DecidableEq

/-- Track.dispatch branch selection: a full response resolves immediately
to self; a simplified response triggers fetchTrack; a URI entry triggers
fetchTrack; anything else goes to searchForTrack. No isLink test
occurs. -/
def dispatchAction (t : Track) : TrackAction :=
  match t.response with
  | some _ => TrackAction.resolveSelf
  | none =>
    match t.responseSimple with
    | some _ => TrackAction.fetchTrack
    | none =>
      if isURI t.entry then TrackAction.fetchTrack else TrackAction.searchForTrack

/-- Track.fetchTrack: the remote full record is attached as the full
response, leaving the track in the FULL state. -/
def fetchTrackApply (t : Track) (result : TrackResponse) : Track :=
  { t with response := some result }

/-- Remote lookup operations issued against the Spotify collaborator. -/
inductive RemoteCall where
  | searchTrack
  | fetchTrackById
  | searchAlbum
  | fetchAlbumById
  | searchArtist
  | fetchArtistAlbums
deriving DecidableEq

/-- Remote calls issued directly by one Track.dispatch invocation. -/
def trackDispatchCalls (t : Track) : List RemoteCall :=
  match dispatchAction t with
  | TrackAction.resolveSelf => []
  | TrackAction.fetchTrack => [RemoteCall.fetchTrackById]
  | TrackAction.searchForTrack => [RemoteCall.searchTrack]

/-- Track.uri: the uri of the full response, else of the simplified
response, else the empty string. -/
def trackUri (t : Track) : String :=
  match t.response with
  | some r => r.uri
  | none =>
    match t.responseSimple with
    | some r => r.uri
    | none => ""

/-- Track.popularity: the popularity field of the full response (none
models the undefined value when the field is absent), or -1 when no full
response is attached. -/
def trackPopularity (t : Track) : Option Int :=
  match t.response with
  | some r => r.popularity
  | none => some (-1)

/-- Search response for a track query: the optional items array of the
tracks object. -/
structure TracksSearchResult where
  tracks : Option (List TrackResponse)

/-- Whether a track search response contains a usable first match: a
first item whose uri is truthy. -/
def searchMatch (result : TracksSearchResult) : Bool :=
  match result.tracks with
  | some (r :: _) => r.uri != ""
  | _ => false

/-- Callback applied by Track.searchForTrack to a fulfilled search
request: on a usable first item it becomes the simplified response and
the track is the promise value; otherwise the callback returns undefined
(none) and the returned promise still fulfills (Except.ok), it does not
reject. -/
def searchForTrackApply (t : Track) (result : TracksSearchResult) :
    Except Unit (Option Track) :=
  Except.ok
    (match result.tracks with
     | some (r :: _) =>
        if r.uri != "" then some { t with responseSimple := some r } else none
     | _ => none)

/-- Playlist.toString: concatenate the track URIs that are not the empty
string, newline separated, and trim the result. -/
def playlistToString (ts : List Track) : String :=
  trimJS (ts.foldl
    (fun result t => if trackUri t != "" then result ++ trackUri t ++ "\n" else result) "")

/-- Album search response, carrying the id of the first match. -/
structure AlbumSearchResponse where
  firstId : String
deriving DecidableEq

/-- Full album response. -/
structure AlbumResponse where
  id : String
deriving DecidableEq

/-- Album entry: the trimmed entry string plus optional cached search and
album responses. -/
structure Album where
  entry : String
  searchResponse : Option AlbumSearchResponse
  albumResponse : Option AlbumResponse
deriving DecidableEq

/-- Remote calls issued by one Album.dispatch invocation: with a cached
search (or album) response only the search step is skipped; fetchAlbum
always performs the remote album lookup before createQueue. -/
def albumDispatchCalls (a : Album) : List RemoteCall :=
  match a.searchResponse with
  | some _ => [RemoteCall.fetchAlbumById]
  | none =>
    match a.albumResponse with
    | some _ => [RemoteCall.fetchAlbumById]
    | none => [RemoteCall.searchAlbum, RemoteCall.fetchAlbumById]

/-- Artist search response, carrying the id of the first match. -/
structure ArtistSearchResponse where
  firstId : String
deriving DecidableEq

/-- Artist entry: the trimmed entry string plus the optional cached
search response. -/
structure Artist where
  entry : String
  artistResponse : Option ArtistSearchResponse
deriving DecidableEq

/-- Remote calls issued by the direct steps of one Artist.dispatch
invocation: searchForArtist then fetchAlbums run unconditionally (the
subsequent createQueue recursively dispatches the created album queue);
no cached state is consulted. -/
def artistDispatchCalls (_a : Artist) : List RemoteCall :=
  [RemoteCall.searchArtist, RemoteCall.fetchArtistAlbums]

/-- C4 counterexample: an open.spotify.com web link is recognized by
isLink, yet dispatch of an unresolved track built from it goes to text
search, not to the fetch-by-id lookup; the URI test is the only
direct-reference branch in dispatch (the source lists link support as
future work). -/
theorem c4_link_counterexample :
    isLink "https://open.spotify.com/track/4uLU6hMCjMI75M1A2tKUQC" = true ∧
    dispatchAction (mkTrack "https://open.spotify.com/track/4uLU6hMCjMI75M1A2tKUQC" none)
      = TrackAction.searchForTrack := by
  exact ⟨rfl, rfl⟩

/-- C4 (amended): only the spotify:track: URI form is a direct-reference
form for dispatch: an unresolved track whose entry is a URI is sent to
the fetch-by-id lookup, never to search, and attaching the fetched full
record puts the track in the FULL state; entries in the web-link form go
through search instead. -/
theorem c4_uri_skips_search (t : Track)
    (h1 : t.response = none) (h2 : t.responseSimple = none)
    (h3 : isURI t.entry = true) :
    dispatchAction t = TrackAction.fetchTrack ∧
    trackDispatchCalls t = [RemoteCall.fetchTrackById] ∧
    ∀ r, (fetchTrackApply t r).response = some r := by
  have ha : dispatchAction t = TrackAction.fetchTrack := by
    rw [dispatchAction, h1, h2, h3]
    rfl
  refine ⟨ha, ?_, fun r => rfl⟩
  rw [trackDispatchCalls, ha]

/-- C4 witness: a concrete URI entry is dispatched to fetchTrack and a
fetched record makes it FULL. -/
theorem c4_uri_witness :
    dispatchAction (mkTrack "spotify:track:5jwDjl5FofuDgwITfcROhq" none)
      = TrackAction.fetchTrack ∧
    trackDispatchCalls (mkTrack "spotify:track:5jwDjl5FofuDgwITfcROhq" none)
      = [RemoteCall.fetchTrackById] ∧
    (fetchTrackApply (mkTrack "spotify:track:5jwDjl5FofuDgwITfcROhq" none)
        { popularity := some 50, uri := "spotify:track:5jwDjl5FofuDgwITfcROhq" }).response
      = some { popularity := some 50, uri := "spotify:track:5jwDjl5FofuDgwITfcROhq" } := by
  have h := c4_uri_skips_search (mkTrack "spotify:track:5jwDjl5FofuDgwITfcROhq" none)
    rfl rfl rfl
  exact ⟨h.1, h.2.1, h.2.2 _⟩

/-- C5 counterexample: an Album that already holds a search response (its
state after a completed dispatch) does not reuse cached listings: its
re-dispatch issues the remote album fetch again, and an Artist re-dispatch
re-issues its remote queries as well. -/
theorem c5_album_refetch_counterexample :
    albumDispatchCalls
        { entry := "test", searchResponse := some { firstId := "id1" }, albumResponse := none }
      = [RemoteCall.fetchAlbumById] ∧
    albumDispatchCalls
        { entry := "test", searchResponse := some { firstId := "id1" }, albumResponse := none }
      ≠ [] ∧
    artistDispatchCalls { entry := "test", artistResponse := some { firstId := "id2" } }
      ≠ [] := by
  refine ⟨rfl, by decide, by decide⟩

/-- C5 (amended): re-dispatching a FULL Track resolves immediately to the
same Track with no remote call; but a re-dispatched Album with cached
search data skips only the search step and re-issues the remote album
fetch, and a re-dispatched Artist re-issues all its remote queries. -/
theorem c5_dispatch_idempotence :
    (∀ t : Track, t.response.isSome = true →
      dispatchAction t = TrackAction.resolveSelf ∧ trackDispatchCalls t = []) ∧
    (∀ a : Album, a.searchResponse.isSome = true →
      albumDispatchCalls a = [RemoteCall.fetchAlbumById]) ∧
    (∀ a : Artist,
      artistDispatchCalls a = [RemoteCall.searchArtist, RemoteCall.fetchArtistAlbums]) := by
  refine ⟨?_, ?_, fun a => rfl⟩
  · intro t h
    obtain ⟨r, hr⟩ := Option.isSome_iff_exists.mp h
    have ha : dispatchAction t = TrackAction.resolveSelf := by
      rw [dispatchAction, hr]
    exact ⟨ha, by rw [trackDispatchCalls, ha]⟩
  · intro a h
    obtain ⟨r, hr⟩ := Option.isSome_iff_exists.mp h
    rw [albumDispatchCalls, hr]

/-- C5 witness: concrete FULL track, already-searched album and artist. -/
theorem c5_idempotence_witness :
    dispatchAction (mkTrack "foo" (some { popularity := some 50, uri := "u" }))
      = TrackAction.resolveSelf ∧
    trackDispatchCalls (mkTrack "foo" (some { popularity := some 50, uri := "u" })) = [] ∧
    albumDispatchCalls
        { entry := "e", searchResponse := some { firstId := "i" }, albumResponse := none }
      = [RemoteCall.fetchAlbumById] ∧
    artistDispatchCalls { entry := "e", artistResponse := none }
      = [RemoteCall.searchArtist, RemoteCall.fetchArtistAlbums] := by
  refine
    ⟨(c5_dispatch_idempotence.1 (mkTrack "foo" (some { popularity := some 50, uri := "u" }))
        rfl).1,
      (c5_dispatch_idempotence.1 (mkTrack "foo" (some { popularity := some 50, uri := "u" }))
        rfl).2,
      c5_dispatch_idempotence.2.1
        { entry := "e", searchResponse := some { firstId := "i" }, albumResponse := none } rfl,
      c5_dispatch_idempotence.2.2 { entry := "e", artistResponse := none }⟩

/-- C6: a track search with no usable match fulfills (it does not reject,
so the enclosing sequential batch continues), the track keeps no response
so its uri accessor yields the empty string, and the rendering stage
skips the entry entirely rather than failing: removing the track from the
rendered list leaves the output unchanged. -/
theorem c6_no_match (t : Track)
    (h1 : t.response = none) (h2 : t.responseSimple = none)
    (result : TracksSearchResult) (hm : searchMatch result = false) :
    searchForTrackApply t result = Except.ok none ∧
    trackUri t = "" ∧
    ∀ pre post : List Track,
      playlistToString (pre ++ t :: post) = playlistToString (pre ++ post) := by
  have huri : trackUri t = "" := by
    rw [trackUri, h1, h2]
  refine ⟨?_, huri, ?_⟩
  · rw [searchForTrackApply]
    rcases hres : result.tracks with _ | ls
    · rfl
    · rcases ls with _ | ⟨r, rest⟩
      · rfl
      · have : (r.uri != "") = false := by
          rw [searchMatch, hres] at hm
          exact hm
        simp [this]
  · intro pre post
    have hstep : ∀ s : String,
        (if trackUri t != "" then s ++ trackUri t ++ "\n" else s) = s := by
      intro s
      rw [huri]
      rfl
    rw [playlistToString, playlistToString, List.foldl_append, List.foldl_append,
      List.foldl_cons]
    simp only [hstep]

/-- C6 witness: a concrete unresolved track, an empty search result, and
a two-entry rendering where the empty entry is dropped. -/
theorem c6_no_match_witness :
    searchForTrackApply (mkTrack "norestforthewicked" none) { tracks := some [] }
      = Except.ok none ∧
    trackUri (mkTrack "norestforthewicked" none) = "" ∧
    playlistToString
        ([mkTrack "a" (some { popularity := some 3, uri := "spotify:track:x" })]
          ++ mkTrack "norestforthewicked" none :: [])
      = playlistToString
        ([mkTrack "a" (some { popularity := some 3, uri := "spotify:track:x" })] ++ []) := by
  have h := c6_no_match (mkTrack "norestforthewicked" none) rfl rfl
    { tracks := some [] } rfl
  exact ⟨h.1, h.2.1, h.2.2 _ _⟩

/-- C10: a response record whose popularity field is 0 or absent fails
the isFullResponse truthiness test, so the constructed track is in the
SIMPLIFIED state: the record is filed as the simplified response, the
popularity accessor returns -1 rather than the record value, and dispatch
takes the remote fetch-by-id branch instead of resolving immediately. -/
theorem c10_zero_popularity (entry : String) (r : TrackResponse)
    (h : r.popularity = some 0 ∨ r.popularity = none) :
    (mkTrack entry (some r)).response = none ∧
    (mkTrack entry (some r)).responseSimple = some r ∧
    trackPopularity (mkTrack entry (some r)) = some (-1) ∧
    dispatchAction (mkTrack entry (some r)) = TrackAction.fetchTrack := by
  have hfull : isFullResponse (some r) = false := by
    rcases h with h | h <;> rw [isFullResponse, h] <;> rfl
  have hmk : mkTrack entry (some r)
      = { entry := trimJS entry, response := none, responseSimple := some r } := by
    rw [mkTrack, if_neg]
    rw [hfull]
    exact Bool.false_ne_true
  rw [hmk]
  exact ⟨rfl, rfl, rfl, rfl⟩

/-- C10 witness: a concrete record with popularity 0. -/
theorem c10_zero_popularity_witness :
    (mkTrack "foo" (some { popularity := some 0, uri := "u" })).response = none ∧
    (mkTrack "foo" (some { popularity := some 0, uri := "u" })).responseSimple
      = some { popularity := some 0, uri := "u" } ∧
    trackPopularity (mkTrack "foo" (some { popularity := some 0, uri := "u" }))
      = some (-1) ∧
    dispatchAction (mkTrack "foo" (some { popularity := some 0, uri := "u" }))
      = TrackAction.fetchTrack :=
  c10_zero_popularity "foo" { popularity := some 0, uri := "u" } (Or.inl rfl)

end Spotgen
